import Mathlib

/-!
Verification of the segment model and offset-splitting algorithms of the
`docx-revisions` repository (`src/docx_revisions/revisions.py`), shallowly
embedded in Lean 4.

A paragraph is modelled as the ordered list of its `w:r` / `w:ins` / `w:del`
children; each child is a `Seg` holding its tag (`Kind`), its XML attributes
relevant to track changes (`Attrs`), and the concatenated text content that
`_extract_text_from_element` would return for it.  Python strings are
modelled as `List Char`; Python integers as `Int`, with Python's slice
normalization rules made explicit (`pyIdx`, `pySlice`).
-/

set_option maxHeartbeats 1000000

namespace DocxRevisions

/-- Python strings modelled as lists of characters. -/
abbrev Str := List Char

/-- Normalize a Python slice bound: a negative index counts from the end
(clamped below at 0), a non-negative index is clamped above at `len`. -/
def pyIdx (len : Nat) (i : Int) : Nat :=
  if i < 0 then ((len : Int) + i).toNat else min i.toNat len

/-- Python slice `s[a:b]` with arbitrary integer bounds. -/
def pySlice (s : Str) (a b : Int) : Str :=
  (s.take (pyIdx s.length b)).drop (pyIdx s.length a)

/-- The tag of a paragraph child element: `w:r`, `w:ins` or `w:del`. -/
inductive Kind where
  | run
  | ins
  | del
deriving DecidableEq, Repr

/-- The track-changes attributes an element may carry (`w:author`, `w:date`,
`w:id`); `none` models an absent attribute. -/
structure Attrs where
  author : Option Str
  date : Option Str
  idv : Option Str
deriving DecidableEq, Repr

/-- One paragraph child element: its tag, its attributes, and the text that
`_extract_text_from_element` extracts from it. -/
structure Seg where
  kind : Kind
  attrs : Attrs
  text : Str
deriving DecidableEq, Repr

/-- Attributes of a freshly created element that carries none. -/
def noAttrs : Attrs := ⟨none, none, none⟩

/-- Attributes set on elements created by the edit operations: author, the
date's isoformat, and the constant identifier `"0"`. -/
def revAttrs (author date : Str) : Attrs := ⟨some author, some date, some ['0']⟩

/-- Embeds `_create_run_with_text`: a plain `w:r` element holding `t`. -/
def create_run_with_text (t : Str) : Seg := ⟨.run, noAttrs, t⟩

/-- Embeds `_create_deletion_element`: a `w:del` element with the deleting
author/date and the constant id, wrapping the deleted text. -/
def create_deletion_element (t author date : Str) : Seg :=
  ⟨.del, revAttrs author date, t⟩

/-- Text a child contributes to the accepted view: `w:del` contributes
nothing, `w:r` and `w:ins` contribute their extracted text. -/
def accOf (c : Seg) : Str :=
  match c.kind with
  | .del => []
  | _ => c.text

/-- Embeds `get_accepted_text`: walk the children in order, appending the
text of `run`/`ins` elements and skipping `del` elements. -/
def get_accepted_text : List Seg → Str
  | [] => []
  | c :: rest => accOf c ++ get_accepted_text rest

/-- Concatenation of the text of all children, deletions included (the
"raw text" of the spec - what a track-changes renderer shows). -/
def rawText : List Seg → Str
  | [] => []
  | c :: rest => c.text ++ rawText rest

/-- The piece-keeping idiom shared by `_split_and_insert` and
`_split_for_deletion`: an empty piece is omitted; an `ins` piece is rebuilt
with the original element's attributes; any other piece is rebuilt by
`_create_run_with_text`. -/
def keep_piece (kind : Kind) (attrs : Attrs) (piece : Str) : List Seg :=
  if piece = [] then []
  else if kind = .ins then [⟨.ins, attrs, piece⟩]
  else [create_run_with_text piece]

/-- Embeds `_split_and_insert`: split `target` at `offset` (Python slice
semantics), keeping each non-empty half - an `ins` half keeps the original
attributes, a run half is rebuilt by `_create_run_with_text` - and place
`newElem` between the halves. -/
def split_and_insert (target newElem : Seg) (offset : Int) : List Seg :=
  let text := target.text
  let beforeText := pySlice text 0 offset
  let afterText := pySlice text offset text.length
  keep_piece target.kind target.attrs beforeText ++ [newElem] ++
    keep_piece target.kind target.attrs afterText

/-- The walking loop of `_insert_at_position`: `run`/`ins` children advance
the accepted cursor and trigger a split when they cover `position`; `del`
children are skipped without advancing; falling off the end appends. -/
def insert_go (newElem : Seg) (position : Int) : Int → List Seg → List Seg
  | _, [] => [newElem]
  | currentPos, c :: rest =>
    match c.kind with
    | .del => c :: insert_go newElem position currentPos rest
    | _ =>
      if currentPos + (c.text.length : Int) > position then
        split_and_insert c newElem (position - currentPos) ++ rest
      else
        c :: insert_go newElem position (currentPos + (c.text.length : Int)) rest

/-- Embeds `_insert_at_position`. -/
def insert_at_position (segs : List Seg) (newElem : Seg) (position : Int) : List Seg :=
  insert_go newElem position 0 segs

/-- Embeds `insert_with_tracking`: build the `w:ins` element and either
append it (`position = -1`) or hand it to `_insert_at_position`. -/
def insert_with_tracking (segs : List Seg) (t : Str) (position : Int)
    (author date : Str) : List Seg :=
  let insElem : Seg := ⟨.ins, revAttrs author date, t⟩
  if position = -1 then segs ++ [insElem]
  else insert_at_position segs insElem position

/-- Embeds `_split_for_deletion`: cut `text` into before / deleted / after
pieces using the clamped local deletion bounds, keep each non-empty piece
(the deleted piece wrapped by `_create_deletion_element`, the others
inheriting the original tag and, for `ins`, the original attributes). -/
def split_for_deletion (text : Str) (elemStart delStart delEnd : Int)
    (author date : Str) (kind : Kind) (attrs : Attrs) : List Seg :=
  let localDelStart : Int := max 0 (delStart - elemStart)
  let localDelEnd : Int := min (text.length : Int) (delEnd - elemStart)
  let before := pySlice text 0 localDelStart
  let deleted := pySlice text localDelStart localDelEnd
  let after := pySlice text localDelEnd text.length
  keep_piece kind attrs before ++
    (if deleted = [] then [] else [create_deletion_element deleted author date]) ++
    keep_piece kind attrs after

/-- The per-child body of the loop of `_mark_range_as_deleted`: `del`
children pass through; a `run`/`ins` child is kept, fully wrapped, or split
according to how its accepted range `[elemStart, elemStart+len)` meets the
deletion range. -/
def pieces_for (startI endI : Int) (author date : Str) (elemStart : Int)
    (c : Seg) : List Seg :=
  match c.kind with
  | .del => [c]
  | _ =>
    let n : Int := c.text.length
    if elemStart + n ≤ startI ∨ elemStart ≥ endI then [c]
    else if elemStart ≥ startI ∧ elemStart + n ≤ endI then
      [create_deletion_element c.text author date]
    else split_for_deletion c.text elemStart startI endI author date c.kind c.attrs

/-- How far a child advances the accepted cursor in the deletion walk. -/
def advance (c : Seg) : Int :=
  match c.kind with
  | .del => 0
  | _ => (c.text.length : Int)

/-- The walking loop of `_mark_range_as_deleted`. -/
def mark_go (s e : Int) (author date : Str) : Int → List Seg → List Seg
  | _, [] => []
  | cp, c :: rest =>
    pieces_for s e author date cp c ++ mark_go s e author date (cp + advance c) rest

/-- Embeds `_mark_range_as_deleted`. -/
def mark_range_as_deleted (segs : List Seg) (s e : Int) (author date : Str) : List Seg :=
  mark_go s e author date 0 segs

/-- Embeds `delete_with_tracking`: no-op when `start_offset >= end_offset`,
otherwise mark the range as deleted. -/
def delete_with_tracking (segs : List Seg) (startOff endOff : Int)
    (author date : Str) : List Seg :=
  if startOff ≥ endOff then segs
  else mark_range_as_deleted segs startOff endOff author date

/-- The needle occurs in the haystack at index `i`, in the sense of Python
substring search: `hay[i : i + len(needle)] == needle`. -/
abbrev occursAt (hay needle : Str) (i : Nat) : Prop :=
  (hay.drop i).take needle.length = needle

/-- Fuelled scan underlying the model of Python `str.find`. -/
def find_go (hay needle : Str) : Nat → Nat → Option Nat
  | _, 0 => none
  | i, fuel + 1 =>
    if (hay.drop i).take needle.length = needle then some i
    else find_go hay needle (i + 1) fuel

/-- Model of Python `str.find`: the least index at which `needle` occurs in
`hay`, or `-1` when it does not occur. -/
def pyFind (hay needle : Str) : Int :=
  match find_go hay needle 0 (hay.length + 1) with
  | none => -1
  | some i => (i : Int)

/-- Embeds `replace_with_tracking`: find the first occurrence of `oldText`
in the accepted text; if absent return the input and `false`, otherwise
delete the occurrence's range and insert `newText` at its position, both
with the same author and date, and return `true`. -/
def replace_with_tracking (segs : List Seg) (oldText newText : Str)
    (author date : Str) : List Seg × Bool :=
  let accepted := get_accepted_text segs
  let pos := pyFind accepted oldText
  if pos = -1 then (segs, false)
  else
    let afterDel := delete_with_tracking segs pos (pos + (oldText.length : Int)) author date
    (insert_with_tracking afterDel newText pos author date, true)

/-- A revision extracted by `get_revisions`; the parsed date is modelled
abstractly (see `get_revisions`). -/
structure Revision where
  type : Kind
  text : Str
  author : Str
  date : Option Str
deriving DecidableEq, Repr

/-- Python `date_str.replace("Z", "+00:00")`. -/
def replaceZ : Str → Str
  | [] => []
  | ch :: rest => (if ch = 'Z' then ['+', '0', '0', ':', '0', '0'] else [ch]) ++ replaceZ rest

/-- Embeds `get_revisions`, with `datetime.fromisoformat` modelled by the
parameter `parseIso` (returning `none` exactly when the Python call would
raise one of the suppressed errors): for each `ins`/`del` child, the author
attribute defaults to `"Unknown"`, an absent or empty date attribute yields
no date, a present one is parsed after the `Z` replacement with failures
swallowed, and a `Revision` is emitted only when the text is non-empty. -/
def get_revisions (parseIso : Str → Option Str) : List Seg → List Revision
  | [] => []
  | c :: rest =>
    (match c.kind with
     | .run => []
     | k =>
       let author := c.attrs.author.getD ['U', 'n', 'k', 'n', 'o', 'w', 'n']
       let date : Option Str :=
         match c.attrs.date with
         | none => none
         | some ds => if ds = [] then none else parseIso (replaceZ ds)
       if c.text = [] then [] else [⟨k, c.text, author, date⟩]) ++
    get_revisions parseIso rest

/-- An edit operation of the public API. -/
inductive Op where
  | insOp (t : Str) (p : Int) (a d : Str)
  | delOp (s e : Int) (a d : Str)
  | repOp (oldT newT a d : Str)

/-- Apply one edit operation to a paragraph state. -/
def applyOp (segs : List Seg) : Op → List Seg
  | .insOp t p a d => insert_with_tracking segs t p a d
  | .delOp s e a d => delete_with_tracking segs s e a d
  | .repOp oldT newT a d => (replace_with_tracking segs oldT newT a d).1

/-- Apply a sequence of edit operations in order. -/
def applyOps (init : List Seg) : List Op → List Seg
  | [] => init
  | op :: ops => applyOps (applyOp init op) ops

/-- Spec-side accepted text, stated in the claims' words: the concatenation,
in document order, of the text of all `r` and `ins` elements. -/
def acceptedSpec (segs : List Seg) : Str :=
  ((segs.filter (fun c => c.kind == Kind.run || c.kind == Kind.ins)).map Seg.text).flatten

/-! ### Basic lemmas about the projections -/

theorem acc_append (l₁ l₂ : List Seg) :
    get_accepted_text (l₁ ++ l₂) = get_accepted_text l₁ ++ get_accepted_text l₂ := by
  induction l₁ with
  | nil => rfl
  | cons c rest ih => simp [get_accepted_text, ih]

theorem raw_append (l₁ l₂ : List Seg) :
    rawText (l₁ ++ l₂) = rawText l₁ ++ rawText l₂ := by
  induction l₁ with
  | nil => rfl
  | cons c rest ih => simp [rawText, ih]

theorem pyIdx_zero (len : Nat) : pyIdx len 0 = 0 := by
  simp [pyIdx]

theorem pyIdx_self (len : Nat) : pyIdx len (len : Int) = len := by
  simp [pyIdx]

theorem pyIdx_le (len : Nat) (i : Int) : pyIdx len i ≤ len := by
  unfold pyIdx
  split <;> omega

theorem pyIdx_of_nonneg (len : Nat) (i : Int) (h : 0 ≤ i) :
    pyIdx len i = min i.toNat len := by
  unfold pyIdx
  split <;> omega

theorem pySlice_prefix (t : Str) (k : Int) :
    pySlice t 0 k = t.take (pyIdx t.length k) := by
  simp [pySlice, pyIdx_zero]

theorem pySlice_suffix (t : Str) (k : Int) :
    pySlice t k (t.length : Int) = t.drop (pyIdx t.length k) := by
  simp [pySlice, pyIdx_self]

theorem accOf_run (a : Attrs) (t : Str) : accOf ⟨.run, a, t⟩ = t := rfl

theorem accOf_ins (a : Attrs) (t : Str) : accOf ⟨.ins, a, t⟩ = t := rfl

theorem accOf_del (a : Attrs) (t : Str) : accOf ⟨.del, a, t⟩ = [] := rfl

theorem acc_keep_piece (k : Kind) (a : Attrs) (p : Str) :
    get_accepted_text (keep_piece k a p) = p := by
  unfold keep_piece
  split
  · simp_all [get_accepted_text]
  · split <;> simp [get_accepted_text, accOf, create_run_with_text]

theorem raw_keep_piece (k : Kind) (a : Attrs) (p : Str) :
    rawText (keep_piece k a p) = p := by
  unfold keep_piece
  split
  · simp_all [rawText]
  · split <;> simp [rawText, create_run_with_text]

theorem acc_split_and_insert (c ne : Seg) (off : Int) :
    get_accepted_text (split_and_insert c ne off)
      = c.text.take (pyIdx c.text.length off) ++ accOf ne
          ++ c.text.drop (pyIdx c.text.length off) := by
  unfold split_and_insert
  simp [acc_append, acc_keep_piece, pySlice_prefix, pySlice_suffix, get_accepted_text]

theorem raw_split_and_insert (c ne : Seg) (off : Int) :
    rawText (split_and_insert c ne off)
      = c.text.take (pyIdx c.text.length off) ++ ne.text
          ++ c.text.drop (pyIdx c.text.length off) := by
  unfold split_and_insert
  simp [raw_append, raw_keep_piece, pySlice_prefix, pySlice_suffix, rawText]

theorem acc_split_for_deletion (t : Str) (es s e : Int) (a d : Str)
    (k : Kind) (at_ : Attrs) :
    get_accepted_text (split_for_deletion t es s e a d k at_)
      = t.take (pyIdx t.length (max 0 (s - es)))
          ++ t.drop (pyIdx t.length (min (t.length : Int) (e - es))) := by
  unfold split_for_deletion
  simp only [acc_append, acc_keep_piece, pySlice_prefix, pySlice_suffix]
  split <;> simp [get_accepted_text, accOf, create_deletion_element]

theorem raw_split_for_deletion (t : Str) (es s e : Int) (a d : Str)
    (k : Kind) (at_ : Attrs)
    (h : pyIdx t.length (max 0 (s - es)) ≤ pyIdx t.length (min (t.length : Int) (e - es))) :
    rawText (split_for_deletion t es s e a d k at_) = t := by
  unfold split_for_deletion
  simp only [raw_append, raw_keep_piece, pySlice, pyIdx_zero, pyIdx_self,
    List.drop_zero, List.take_length]
  set i := pyIdx t.length (max 0 (s - es)) with hi
  set j := pyIdx t.length (min (t.length : Int) (e - es)) with hj
  have hstep : rawText (if (t.take j).drop i = [] then []
      else [create_deletion_element ((t.take j).drop i) a d]) = (t.take j).drop i := by
    split <;> simp_all [rawText, create_deletion_element]
  rw [hstep]
  have h1 : (t.take j).take i = t.take i := by
    rw [List.take_take]
    congr 1
    omega
  calc t.take i ++ (t.take j).drop i ++ t.drop j
      = ((t.take j).take i ++ (t.take j).drop i) ++ t.drop j := by rw [h1]
    _ = t.take j ++ t.drop j := by rw [List.take_append_drop]
    _ = t := List.take_append_drop j t

/-! ### Lemmas about the insertion walk -/

theorem insert_go_acc_empty (ne : Seg) (hne : accOf ne = []) (p : Int) :
    ∀ (segs : List Seg) (cp : Int),
      get_accepted_text (insert_go ne p cp segs) = get_accepted_text segs := by
  intro segs
  induction segs with
  | nil => intro cp; simp [insert_go, get_accepted_text, hne]
  | cons c rest ih =>
    intro cp
    rcases c with ⟨k, at_, tx⟩
    cases k
    case del => simp [insert_go, get_accepted_text, ih]
    all_goals
      simp only [insert_go]
      split
      · rw [acc_append, acc_split_and_insert, hne]
        rw [List.append_nil, List.take_append_drop]
        simp [get_accepted_text, accOf]
      · simp [get_accepted_text, accOf, ih]

theorem insert_go_raw_empty (ne : Seg) (hne : ne.text = []) (p : Int) :
    ∀ (segs : List Seg) (cp : Int),
      rawText (insert_go ne p cp segs) = rawText segs := by
  intro segs
  induction segs with
  | nil => intro cp; simp [insert_go, rawText, hne]
  | cons c rest ih =>
    intro cp
    rcases c with ⟨k, at_, tx⟩
    cases k
    case del => simp [insert_go, rawText, ih]
    all_goals
      simp only [insert_go]
      split
      · rw [raw_append, raw_split_and_insert]
        simp [hne, rawText, List.take_append_drop]
      · simp [rawText, ih]

theorem insert_go_append (ne : Seg) (p : Int) :
    ∀ (pre tail : List Seg) (cp : Int),
      cp + ((get_accepted_text pre).length : Int) ≤ p →
      insert_go ne p cp (pre ++ tail)
        = pre ++ insert_go ne p (cp + ((get_accepted_text pre).length : Int)) tail := by
  intro pre
  induction pre with
  | nil => intro tail cp h; simp [get_accepted_text]
  | cons c pre' ih =>
    intro tail cp h
    rcases c with ⟨k, at_, tx⟩
    cases k
    case del =>
      simp only [get_accepted_text, accOf, List.nil_append] at h ⊢
      simp only [List.cons_append, insert_go, List.append_eq]
      rw [ih tail cp h]
    all_goals
      simp only [get_accepted_text, accOf, List.length_append] at h ⊢
      simp only [List.cons_append, insert_go, List.append_eq]
      rw [if_neg (by push_cast at h ⊢; omega)]
      rw [ih tail (cp + (tx.length : Int)) (by push_cast at h ⊢; omega)]
      have hcur : cp + (tx.length : Int) + ((get_accepted_text pre').length : Int)
          = cp + ((tx.length + (get_accepted_text pre').length : Nat) : Int) := by
        push_cast
        omega
      rw [hcur]

theorem insert_go_acc_at (ne : Seg) (p : Int) :
    ∀ (segs : List Seg) (cp : Int), 0 ≤ p - cp →
      get_accepted_text (insert_go ne p cp segs)
        = (get_accepted_text segs).take (p - cp).toNat ++ accOf ne
            ++ (get_accepted_text segs).drop (p - cp).toNat := by
  intro segs
  induction segs with
  | nil => intro cp h; simp [insert_go, get_accepted_text]
  | cons c rest ih =>
    intro cp h
    rcases c with ⟨k, at_, tx⟩
    cases k
    case del =>
      simp only [insert_go, get_accepted_text, accOf, List.nil_append]
      exact ih cp h
    all_goals
      simp only [insert_go]
      split
      case isTrue htr =>
        rw [acc_append, acc_split_and_insert]
        simp only [get_accepted_text, accOf]
        have hid : pyIdx tx.length (p - cp) = (p - cp).toNat := by
          rw [pyIdx_of_nonneg _ _ h]; omega
        have hlt : (p - cp).toNat < tx.length := by omega
        rw [hid, List.take_append_eq_append_take, List.drop_append_eq_append_drop]
        have h1 : (p - cp).toNat - tx.length = 0 := by omega
        simp [h1]
      case isFalse htr =>
        simp only [get_accepted_text, accOf, List.nil_append]
        rw [ih (cp + (tx.length : Int)) (by omega)]
        have hjn : tx.length ≤ (p - cp).toNat := by omega
        rw [List.take_append_eq_append_take, List.drop_append_eq_append_drop]
        rw [List.take_of_length_le hjn, List.drop_eq_nil_iff.mpr hjn]
        have h2 : (p - cp).toNat - tx.length = (p - (cp + (tx.length : Int))).toNat := by
          omega
        simp [h2, accOf]

/-! ### Lemmas about the deletion walk -/

/-- Each child paired with the accepted-text cursor value at which the
deletion walk reaches it. -/
def segStarts : Int → List Seg → List (Int × Seg)
  | _, [] => []
  | cp, c :: rest => (cp, c) :: segStarts (cp + advance c) rest

theorem mark_go_bind (s e : Int) (a d : Str) :
    ∀ (segs : List Seg) (cp : Int),
      mark_go s e a d cp segs
        = (segStarts cp segs).flatMap (fun pc => pieces_for s e a d pc.1 pc.2) := by
  intro segs
  induction segs with
  | nil => intro cp; rfl
  | cons c rest ih =>
    intro cp
    simp [mark_go, segStarts, List.flatMap_cons, ih]

theorem drop_min_length (tx : Str) (j : Nat) : tx.drop (min tx.length j) = tx.drop j := by
  rcases Nat.le_total j tx.length with hj | hj
  · rw [Nat.min_eq_right hj]
  · rw [Nat.min_eq_left hj, List.drop_eq_nil_iff.mpr (le_refl _),
      List.drop_eq_nil_iff.mpr hj]

theorem mark_go_raw (s e : Int) (a d : Str) (hse : s < e) :
    ∀ (segs : List Seg) (cp : Int),
      rawText (mark_go s e a d cp segs) = rawText segs := by
  intro segs
  induction segs with
  | nil => intro cp; rfl
  | cons c rest ih =>
    intro cp
    rcases c with ⟨k, at_, tx⟩
    cases k
    case del =>
      simp only [mark_go, pieces_for, advance]
      rw [raw_append, ih]
      simp [rawText]
    all_goals
      simp only [mark_go, pieces_for, advance]
      rw [raw_append, ih]
      split
      case isTrue h1 => simp [rawText]
      case isFalse h1 =>
        split
        case isTrue h2 => simp [rawText, create_deletion_element]
        case isFalse h2 =>
          rw [raw_split_for_deletion]
          · simp [rawText]
          · unfold pyIdx
            split_ifs <;> omega

theorem mark_go_acc (s e : Int) (a d : Str) (hse : s < e) :
    ∀ (segs : List Seg) (cp : Int),
      get_accepted_text (mark_go s e a d cp segs)
        = (get_accepted_text segs).take (s - cp).toNat
            ++ (get_accepted_text segs).drop (e - cp).toNat := by
  intro segs
  induction segs with
  | nil => intro cp; simp [mark_go, get_accepted_text]
  | cons c rest ih =>
    intro cp
    rcases c with ⟨k, at_, tx⟩
    cases k
    case del =>
      simp only [mark_go, pieces_for, advance, Int.add_zero]
      rw [acc_append, ih cp]
      simp [get_accepted_text, accOf]
    all_goals
      simp only [mark_go, pieces_for, advance]
      rw [acc_append, ih (cp + (tx.length : Int))]
      simp only [get_accepted_text, accOf, List.nil_append]
      split
      case isTrue h1 =>
        rw [List.take_append_eq_append_take, List.drop_append_eq_append_drop]
        rcases h1 with h1a | h1b
        · rw [List.take_of_length_le (by omega : tx.length ≤ (s - cp).toNat),
            List.drop_eq_nil_iff.mpr (by omega : tx.length ≤ (e - cp).toNat)]
          have e1 : (s - cp).toNat - tx.length = (s - (cp + (tx.length : Int))).toNat := by
            omega
          have e2 : (e - cp).toNat - tx.length = (e - (cp + (tx.length : Int))).toNat := by
            omega
          simp [e1, e2, get_accepted_text, accOf]
        · have e1 : (s - cp).toNat = 0 := by omega
          have e2 : (e - cp).toNat = 0 := by omega
          have e3 : (s - (cp + (tx.length : Int))).toNat = 0 := by omega
          have e4 : (e - (cp + (tx.length : Int))).toNat = 0 := by omega
          simp [e1, e2, e3, e4, get_accepted_text, accOf]
      case isFalse h1 =>
        split
        case isTrue h2 =>
          simp only [get_accepted_text, accOf, create_deletion_element, List.nil_append]
          rw [List.take_append_eq_append_take, List.drop_append_eq_append_drop]
          have e1 : (s - cp).toNat = 0 := by omega
          have e2 : (s - (cp + (tx.length : Int))).toNat = 0 := by omega
          have e3 : tx.length ≤ (e - cp).toNat := by omega
          have e4 : (e - cp).toNat - tx.length = (e - (cp + (tx.length : Int))).toNat := by
            omega
          rw [List.drop_eq_nil_iff.mpr e3]
          simp [e1, e2, e4]
        case isFalse h2 =>
          rw [acc_split_for_deletion]
          rw [List.take_append_eq_append_take, List.drop_append_eq_append_drop]
          have hs : s - cp < (tx.length : Int) := by omega
          have he : 0 < e - cp := by omega
          have e1 : pyIdx tx.length (max 0 (s - cp)) = (s - cp).toNat := by
            unfold pyIdx
            split <;> omega
          have e2 : pyIdx tx.length (min (tx.length : Int) (e - cp))
              = min tx.length (e - cp).toNat := by
            unfold pyIdx
            split <;> omega
          have e3 : (s - cp).toNat - tx.length = 0 := by omega
          have e4 : (s - (cp + (tx.length : Int))).toNat = 0 := by omega
          have e5 : (e - cp).toNat - tx.length = (e - (cp + (tx.length : Int))).toNat := by
            omega
          rw [e1, e2, e3, e4, e5, drop_min_length]
          simp

/-! ### Lemmas about the substring search -/

theorem find_go_none_spec (hay needle : Str) :
    ∀ (fuel i : Nat), find_go hay needle i fuel = none →
      ∀ q, i ≤ q → q < i + fuel → ¬ occursAt hay needle q := by
  intro fuel
  induction fuel with
  | zero => intro i h q hq1 hq2; omega
  | succ fuel ih =>
    intro i h q hq1 hq2
    by_cases hocc : (hay.drop i).take needle.length = needle
    · rw [find_go, if_pos hocc] at h
      cases h
    · rw [find_go, if_neg hocc] at h
      rcases Nat.eq_or_lt_of_le hq1 with rfl | hlt
      · exact hocc
      · exact ih (i + 1) h q hlt (by omega)

theorem find_go_some_spec (hay needle : Str) :
    ∀ (fuel i p : Nat), find_go hay needle i fuel = some p →
      occursAt hay needle p ∧ i ≤ p ∧ ∀ q, i ≤ q → q < p → ¬ occursAt hay needle q := by
  intro fuel
  induction fuel with
  | zero => intro i p h; cases h
  | succ fuel ih =>
    intro i p h
    by_cases hocc : (hay.drop i).take needle.length = needle
    · rw [find_go, if_pos hocc] at h
      cases h
      exact ⟨hocc, le_refl _, fun q hq1 hq2 => by omega⟩
    · rw [find_go, if_neg hocc] at h
      obtain ⟨h1, h2, h3⟩ := ih (i + 1) p h
      refine ⟨h1, by omega, fun q hq1 hq2 => ?_⟩
      rcases Nat.eq_or_lt_of_le hq1 with rfl | hlt
      · exact hocc
      · exact h3 q hlt hq2

theorem needle_nil_of_occursAt_big (hay needle : Str) (q : Nat)
    (hq : hay.length < q) (h : occursAt hay needle q) : needle = [] := by
  unfold occursAt at h
  rw [List.drop_eq_nil_iff.mpr (by omega)] at h
  simpa using h.symm

theorem pyFind_none_spec (hay needle : Str)
    (h : ∀ q, ¬ occursAt hay needle q) : pyFind hay needle = -1 := by
  cases hfg : find_go hay needle 0 (hay.length + 1) with
  | none => simp [pyFind, hfg]
  | some p => exact absurd (find_go_some_spec hay needle _ 0 p hfg).1 (h p)

theorem pyFind_some_spec (hay needle : Str) (p : Nat)
    (hocc : occursAt hay needle p) (hmin : ∀ q < p, ¬ occursAt hay needle q) :
    pyFind hay needle = (p : Int) := by
  cases hfg : find_go hay needle 0 (hay.length + 1) with
  | none =>
    exfalso
    have hnone := find_go_none_spec hay needle (hay.length + 1) 0 hfg
    by_cases hp : p ≤ hay.length
    · exact hnone p (Nat.zero_le _) (by omega) hocc
    · have hnil : needle = [] := needle_nil_of_occursAt_big hay needle p (by omega) hocc
      have hp0 : 0 < p := by
        rcases Nat.eq_zero_or_pos p with rfl | hpos
        · omega
        · exact hpos
      exact hmin 0 hp0 (by simp [occursAt, hnil])
  | some p' =>
    obtain ⟨ho', _, hmin'⟩ := find_go_some_spec hay needle _ 0 p' hfg
    have hpp : p' = p := by
      rcases Nat.lt_trichotomy p' p with hlt | heq | hgt
      · exact absurd ho' (hmin p' hlt)
      · exact heq
      · exact absurd hocc (hmin' p (Nat.zero_le _) hgt)
    subst hpp
    simp [pyFind, hfg]

/-! ### Helper lemmas for the claims -/

theorem acc_eq_spec (segs : List Seg) : get_accepted_text segs = acceptedSpec segs := by
  induction segs with
  | nil => rfl
  | cons c rest ih =>
    rcases c with ⟨k, at_, tx⟩
    cases k <;> simp [get_accepted_text, accOf, acceptedSpec, List.filter_cons, ih]

theorem acc_all_del (dels : List Seg) (h : ∀ x ∈ dels, x.kind = .del) :
    get_accepted_text dels = [] := by
  induction dels with
  | nil => rfl
  | cons c rest ih =>
    have hc : c.kind = .del := h c (List.mem_cons_self c rest)
    have hr := ih (fun x hx => h x (List.mem_cons_of_mem c hx))
    rcases c with ⟨k, at_, tx⟩
    cases k
    case del => simp [get_accepted_text, accOf, hr]
    all_goals cases hc

/-! ### The claims -/

/-- C1: for every paragraph state reachable by any sequence of
`insert_with_tracking` / `delete_with_tracking` / `replace_with_tracking`
calls, `get_accepted_text` returns exactly the concatenation, in document
order, of the text of all `r` and `ins` elements, with every `del` element
contributing nothing. -/
theorem claim_C1 (init : List Seg) (ops : List Op) :
    get_accepted_text (applyOps init ops) = acceptedSpec (applyOps init ops) :=
  acc_eq_spec (applyOps init ops)

/-- C2 as stated is false: `insert_with_tracking` at accepted offset `-2`
on a single run `"ab"` splices the new segment at Python-slice position
`-2` (here: the front), so the accepted text is not the original text
followed by the inserted text. -/
theorem claim_C2_counterexample :
    get_accepted_text
        (insert_with_tracking [create_run_with_text ['a', 'b']] ['X'] (-2) ['A'] ['D'])
      ≠ get_accepted_text [create_run_with_text ['a', 'b']] ++ ['X'] := by
  decide

/-- C2 amended: only the sentinel `-1` - not every negative offset - and
any offset at or beyond the accepted length append the new Inserted segment
at the end of the sequence, never splitting an existing segment, so the
accepted text becomes the original accepted text followed by the inserted
text. -/
theorem claim_C2_amended (segs : List Seg) (t : Str) (p : Int) (author date : Str)
    (h : p = -1 ∨ ((get_accepted_text segs).length : Int) ≤ p) :
    insert_with_tracking segs t p author date
        = segs ++ [⟨.ins, revAttrs author date, t⟩]
      ∧ get_accepted_text (insert_with_tracking segs t p author date)
          = get_accepted_text segs ++ t := by
  have hmain : insert_with_tracking segs t p author date
      = segs ++ [⟨.ins, revAttrs author date, t⟩] := by
    unfold insert_with_tracking
    split
    · rfl
    case isFalse hne =>
      have hge : ((get_accepted_text segs).length : Int) ≤ p := by
        rcases h with rfl | hge
        · exact absurd rfl hne
        · exact hge
      unfold insert_at_position
      have hstep := insert_go_append ⟨.ins, revAttrs author date, t⟩ p segs [] 0
        (by omega)
      simpa [insert_go] using hstep
  refine ⟨hmain, ?_⟩
  rw [hmain, acc_append]
  simp [get_accepted_text, accOf]

/-- Witness for the amended C2 at a concrete offset beyond the accepted
length. -/
theorem claim_C2_amended_witness :
    insert_with_tracking [create_run_with_text ['a', 'b']] ['X'] 5 ['A'] ['D']
        = [create_run_with_text ['a', 'b']] ++ [⟨.ins, revAttrs ['A'] ['D'], ['X']⟩]
      ∧ get_accepted_text
            (insert_with_tracking [create_run_with_text ['a', 'b']] ['X'] 5 ['A'] ['D'])
          = get_accepted_text [create_run_with_text ['a', 'b']] ++ ['X'] :=
  claim_C2_amended [create_run_with_text ['a', 'b']] ['X'] 5 ['A'] ['D']
    (Or.inr (by decide))

/-- C3 as stated is false: inserting empty text is not a no-op on the
segment list - an empty Inserted segment is appended, so the number of
segments changes. -/
theorem claim_C3_counterexample :
    insert_with_tracking [create_run_with_text ['a']] [] (-1) ['A'] ['D']
      ≠ [create_run_with_text ['a']] := by
  decide

/-- C3 amended: inserting empty text at any offset leaves both the accepted
text and the raw text unchanged, though the segment list itself gains an
empty Inserted segment (and a split segment may be rebuilt). -/
theorem claim_C3_amended (segs : List Seg) (p : Int) (author date : Str) :
    get_accepted_text (insert_with_tracking segs [] p author date)
        = get_accepted_text segs
      ∧ rawText (insert_with_tracking segs [] p author date) = rawText segs := by
  unfold insert_with_tracking
  split
  · constructor
    · rw [acc_append]
      simp [get_accepted_text, accOf]
    · rw [raw_append]
      simp [rawText]
  · unfold insert_at_position
    exact ⟨insert_go_acc_empty ⟨.ins, revAttrs author date, []⟩ rfl p segs 0,
      insert_go_raw_empty ⟨.ins, revAttrs author date, []⟩ rfl p segs 0⟩

/-- C4: for all integers `s < e`, the accepted-text length after
`delete_with_tracking segs s e` equals `L - max 0 (min e L - max s 0)`
where `L` is the accepted-text length of the input: the range is clamped to
`[0, L]` and exactly that many characters leave the accepted text. -/
theorem claim_C4 (segs : List Seg) (s e : Int) (a d : Str) (h : s < e) :
    ((get_accepted_text (delete_with_tracking segs s e a d)).length : Int)
      = ((get_accepted_text segs).length : Int)
          - max 0 (min e ((get_accepted_text segs).length : Int) - max s 0) := by
  unfold delete_with_tracking
  rw [if_neg (by omega)]
  unfold mark_range_as_deleted
  rw [mark_go_acc s e a d h segs 0]
  simp only [Int.sub_zero, List.length_append, List.length_take, List.length_drop]
  omega

/-- Witness for C4 at a concrete sequence and range. -/
theorem claim_C4_witness :
    ((get_accepted_text
          (delete_with_tracking [create_run_with_text ['a', 'b', 'c']] 1 2 ['A'] ['D'])).length
        : Int)
      = ((get_accepted_text [create_run_with_text ['a', 'b', 'c']]).length : Int)
          - max 0 (min 2 ((get_accepted_text [create_run_with_text ['a', 'b', 'c']]).length : Int)
              - max 1 0) :=
  claim_C4 [create_run_with_text ['a', 'b', 'c']] 1 2 ['A'] ['D'] (by decide)

theorem keep_piece_kind_ne_del (k : Kind) (a : Attrs) (p : Str) (c' : Seg)
    (h : c' ∈ keep_piece k a p) : c'.kind ≠ .del := by
  unfold keep_piece at h
  split at h
  · cases h
  · split at h
    all_goals
      rcases List.mem_singleton.mp h with rfl
      simp [create_run_with_text]

theorem mark_go_mem (s e : Int) (a d : Str) :
    ∀ (segs : List Seg) (cp : Int) (c' : Seg),
      c' ∈ mark_go s e a d cp segs → c'.kind = .del →
      c' ∈ segs ∨ c'.attrs = revAttrs a d := by
  intro segs
  induction segs with
  | nil => intro cp c' hmem _; cases hmem
  | cons c rest ih =>
    intro cp c' hmem hdel
    rw [mark_go, List.mem_append] at hmem
    rcases hmem with hp | hr
    · rcases c with ⟨k, at_, tx⟩
      cases k
      case del =>
        rcases List.mem_singleton.mp hp with rfl
        exact Or.inl (List.mem_cons_self _ _)
      all_goals
        simp only [pieces_for] at hp
        split at hp
        · rcases List.mem_singleton.mp hp with rfl
          exact Or.inl (List.mem_cons_self _ _)
        · split at hp
          · rcases List.mem_singleton.mp hp with rfl
            exact Or.inr rfl
          · unfold split_for_deletion at hp
            rw [List.mem_append, List.mem_append] at hp
            rcases hp with (hp1 | hp2) | hp3
            · exact absurd hdel (keep_piece_kind_ne_del _ _ _ _ hp1)
            · split at hp2
              · cases hp2
              · rcases List.mem_singleton.mp hp2 with rfl
                exact Or.inr rfl
            · exact absurd hdel (keep_piece_kind_ne_del _ _ _ _ hp3)
    · rcases ih (cp + advance c) c' hr hdel with hin | hattrs
      · exact Or.inl (List.mem_cons_of_mem c hin)
      · exact Or.inr hattrs

/-- C5: a `delete_with_tracking` call never changes the raw text; the
result is exactly the per-child pieces of the deletion walk in order, and
every child whose accepted range lies entirely outside `[start, end)` -
including every pre-existing `del` child - passes through as one piece,
content and attribution identical to the input. -/
theorem claim_C5 (segs : List Seg) (s e : Int) (a d : Str) :
    rawText (delete_with_tracking segs s e a d) = rawText segs
    ∧ (s < e → delete_with_tracking segs s e a d
        = (segStarts 0 segs).flatMap (fun pc => pieces_for s e a d pc.1 pc.2))
    ∧ ∀ (es : Int) (c : Seg),
        (c.kind = .del ∨ es + (c.text.length : Int) ≤ s ∨ e ≤ es) →
        pieces_for s e a d es c = [c] := by
  refine ⟨?_, ?_, ?_⟩
  · unfold delete_with_tracking
    split
    · rfl
    case isFalse hlt =>
      exact mark_go_raw s e a d (by omega) segs 0
  · intro hse
    unfold delete_with_tracking
    rw [if_neg (by omega)]
    exact mark_go_bind s e a d segs 0
  · intro es c hc
    rcases c with ⟨k, at_, tx⟩
    cases k
    case del => rfl
    all_goals
      rcases hc with hk | hcond
      · exact absurd hk (by simp)
      · simp only [pieces_for]
        rw [if_pos hcond]

/-- Witness for the pass-through part of C5: a run entirely to the right of
the deletion range is returned unchanged. -/
theorem claim_C5_witness :
    pieces_for 0 1 ['a'] ['d'] 5 (create_run_with_text ['x', 'y'])
      = [create_run_with_text ['x', 'y']] :=
  (claim_C5 [] 0 1 ['a'] ['d']).2.2 5 (create_run_with_text ['x', 'y'])
    (Or.inr (Or.inr (by decide)))

/-- C6: every `del` element of the output of `delete_with_tracking` is
either a pre-existing `del` element of the input or carries exactly the
deleting call's author and date (and the constant id) - the covered
segment's own attribution, inserted or not, is discarded and appears
nowhere on the deletion element. -/
theorem claim_C6 (segs : List Seg) (s e : Int) (a d : Str) (c' : Seg)
    (hmem : c' ∈ delete_with_tracking segs s e a d) (hdel : c'.kind = .del) :
    c' ∈ segs ∨ c'.attrs = revAttrs a d := by
  unfold delete_with_tracking at hmem
  split at hmem
  · exact Or.inl hmem
  · exact mark_go_mem s e a d segs 0 c' hmem hdel

/-- Witness for C6: deleting over an inserted segment yields a deletion
element attributed only to the deleting author. -/
theorem claim_C6_witness :
    (⟨.del, revAttrs ['B'] ['E'], ['h', 'i']⟩ : Seg)
        ∈ [(⟨.ins, revAttrs ['A'] ['D'], ['h', 'i']⟩ : Seg)]
      ∨ (⟨.del, revAttrs ['B'] ['E'], ['h', 'i']⟩ : Seg).attrs = revAttrs ['B'] ['E'] :=
  claim_C6 [⟨.ins, revAttrs ['A'] ['D'], ['h', 'i']⟩] 0 2 ['B'] ['E']
    ⟨.del, revAttrs ['B'] ['E'], ['h', 'i']⟩ (by decide) (by decide)

/-- C7: `replace_with_tracking` with an `old_text` that does not occur in
the accepted text returns the input unchanged with `found = false`; when it
does occur, the result is exactly delete of the first occurrence's range
followed by insert of `new_text` at that position, both with the same
author and date, with `found = true`. -/
theorem claim_C7 (segs : List Seg) (oldT newT a d : Str) :
    ((∀ i, ¬ occursAt (get_accepted_text segs) oldT i) →
      replace_with_tracking segs oldT newT a d = (segs, false))
    ∧ (∀ p : Nat, occursAt (get_accepted_text segs) oldT p →
        (∀ q < p, ¬ occursAt (get_accepted_text segs) oldT q) →
        replace_with_tracking segs oldT newT a d
          = (insert_with_tracking
              (delete_with_tracking segs (p : Int) ((p : Int) + (oldT.length : Int)) a d)
              newT (p : Int) a d, true)) := by
  constructor
  · intro hno
    simp only [replace_with_tracking]
    rw [pyFind_none_spec _ _ hno]
    simp
  · intro p hocc hmin
    simp only [replace_with_tracking]
    rw [pyFind_some_spec _ _ p hocc hmin]
    rw [if_neg (by omega)]

/-- Witness for C7 at a concrete occurrence. -/
theorem claim_C7_witness :
    occursAt (get_accepted_text [create_run_with_text ['a', 'b']]) ['a'] 0
    ∧ replace_with_tracking [create_run_with_text ['a', 'b']] ['a'] ['X'] ['C'] ['D']
        = (insert_with_tracking
            (delete_with_tracking [create_run_with_text ['a', 'b']]
              ((0 : Nat) : Int) (((0 : Nat) : Int) + ((['a'] : Str).length : Int)) ['C'] ['D'])
            ['X'] ((0 : Nat) : Int) ['C'] ['D'], true) :=
  ⟨by decide,
    (claim_C7 [create_run_with_text ['a', 'b']] ['a'] ['X'] ['C'] ['D']).2 0
      (by decide) (fun q hq => absurd hq (Nat.not_lt_zero q))⟩

/-- C8: for any valid accepted offset `0 ≤ p ≤ L`, deleting exactly the
inserted range right after inserting restores the original accepted text
(content equality). -/
theorem claim_C8 (segs : List Seg) (t : Str) (p : Int) (a d a2 d2 : Str)
    (h0 : 0 ≤ p) (hL : p ≤ ((get_accepted_text segs).length : Int)) :
    get_accepted_text
        (delete_with_tracking (insert_with_tracking segs t p a d)
          p (p + (t.length : Int)) a2 d2)
      = get_accepted_text segs := by
  have hins : get_accepted_text (insert_with_tracking segs t p a d)
      = (get_accepted_text segs).take p.toNat ++ t
          ++ (get_accepted_text segs).drop p.toNat := by
    unfold insert_with_tracking
    rw [if_neg (by omega)]
    unfold insert_at_position
    have hgo := insert_go_acc_at ⟨.ins, revAttrs a d, t⟩ p segs 0 (by omega)
    simpa [accOf] using hgo
  by_cases ht : t = []
  · subst ht
    unfold delete_with_tracking
    rw [if_pos (by simp)]
    rw [hins]
    simp [List.take_append_drop]
  · have htlen : 0 < t.length := List.length_pos.mpr ht
    unfold delete_with_tracking
    rw [if_neg (by omega)]
    unfold mark_range_as_deleted
    have hmark := mark_go_acc p (p + (t.length : Int)) a2 d2 (by omega)
      (insert_with_tracking segs t p a d) 0
    rw [hmark, hins]
    simp only [Int.sub_zero]
    set A := get_accepted_text segs with hA
    set B := A.take p.toNat with hB
    set C := A.drop p.toNat with hC
    have hBlen : B.length = p.toNat := by
      rw [hB, List.length_take]
      omega
    have e1 : (p + (t.length : Int)).toNat = p.toNat + t.length := by omega
    rw [e1]
    have h1 : (B ++ t ++ C).take p.toNat = B := by
      rw [List.append_assoc, List.take_append_eq_append_take]
      rw [List.take_of_length_le (by omega), hBlen, Nat.sub_self, List.take_zero,
        List.append_nil]
    have h2 : (B ++ t ++ C).drop (p.toNat + t.length) = C := by
      rw [List.append_assoc, List.drop_append_eq_append_drop]
      rw [List.drop_eq_nil_iff.mpr (by omega), hBlen]
      have e4 : p.toNat + t.length - p.toNat = t.length := by omega
      rw [e4, List.drop_left, List.nil_append]
    rw [h1, h2, hB, hC]
    exact List.take_append_drop p.toNat A

/-- Witness for C8 at a concrete sequence, text and offset. -/
theorem claim_C8_witness :
    (0 : Int) ≤ 1
    ∧ (1 : Int) ≤ ((get_accepted_text [create_run_with_text ['a', 'b']]).length : Int)
    ∧ get_accepted_text
        (delete_with_tracking
          (insert_with_tracking [create_run_with_text ['a', 'b']] ['X'] 1 ['A'] ['D'])
          1 (1 + (((['X'] : Str)).length : Int)) ['B'] ['E'])
      = get_accepted_text [create_run_with_text ['a', 'b']] :=
  ⟨by decide, by decide,
    claim_C8 [create_run_with_text ['a', 'b']] ['X'] 1 ['A'] ['D'] ['B'] ['E']
      (by decide) (by decide)⟩

/-- C9: `get_revisions` returns exactly one `Revision` per non-run child
with non-empty text, in sequence order; a missing author attribute defaults
to `"Unknown"`, and an unparseable (or empty, or absent) date attribute
yields `date = none` - parsing failures are swallowed, never propagated. -/
theorem claim_C9 (parse : Str → Option Str) (segs : List Seg) :
    get_revisions parse segs
      = (segs.filter (fun c => !(c.kind == Kind.run) && !(c.text == ([] : Str)))).map
          (fun c =>
            ⟨c.kind, c.text, c.attrs.author.getD ['U', 'n', 'k', 'n', 'o', 'w', 'n'],
              c.attrs.date.bind
                (fun ds => if ds = [] then none else parse (replaceZ ds))⟩) := by
  induction segs with
  | nil => rfl
  | cons c rest ih =>
    rcases c with ⟨k, ⟨oa, od, oi⟩, tx⟩
    cases k <;> cases od <;> by_cases htx : tx = [] <;>
      simp [get_revisions, List.filter_cons, htx, ih]

/-- C10: when the insertion offset falls exactly at the boundary after a
prefix of children, with one or more `del` children sitting next in raw
order before the next non-deleted child, the new Inserted element lands
after those `del` children, immediately before the next run/ins child
(which is rebuilt as the undisturbed "after" half of the split). -/
theorem claim_C10 (pre dels : List Seg) (c : Seg) (rest : List Seg)
    (t a d : Str) (hdels : ∀ x ∈ dels, x.kind = .del) (hc : c.kind ≠ .del)
    (hct : c.text ≠ []) :
    insert_with_tracking (pre ++ (dels ++ c :: rest)) t
        ((get_accepted_text pre).length : Int) a d
      = pre ++ (dels ++ (⟨.ins, revAttrs a d, t⟩ ::
          (if c.kind = .ins then c else create_run_with_text c.text) :: rest)) := by
  have hctlen : 0 < c.text.length := List.length_pos.mpr hct
  have had : get_accepted_text dels = [] := acc_all_del dels hdels
  unfold insert_with_tracking
  rw [if_neg (by omega)]
  unfold insert_at_position
  rw [insert_go_append ⟨.ins, revAttrs a d, t⟩ ((get_accepted_text pre).length : Int)
    pre (dels ++ c :: rest) 0 (by omega)]
  rw [insert_go_append ⟨.ins, revAttrs a d, t⟩ ((get_accepted_text pre).length : Int)
    dels (c :: rest) (0 + ((get_accepted_text pre).length : Int))
    (by rw [had]; simp only [List.length_nil]; omega)]
  have hcur : 0 + ((get_accepted_text pre).length : Int)
      + ((get_accepted_text dels).length : Int)
      = ((get_accepted_text pre).length : Int) := by
    rw [had]
    simp
  rw [hcur]
  rcases c with ⟨k, at_, tx⟩
  cases k
  case del => exact absurd rfl hc
  all_goals
    simp only [insert_go]
    rw [if_pos (by simp only [Seg.text] at hctlen; omega)]
    have hz : ((get_accepted_text pre).length : Int)
        - ((get_accepted_text pre).length : Int) = 0 := by omega
    rw [hz]
    simp only [Seg.text] at hct
    simp only [split_and_insert, pySlice, pyIdx_zero, pyIdx_self, List.take_zero,
      List.drop_zero, List.take_length]
    simp [keep_piece, hct]

/-- Witness for C10 at a concrete boundary with an intervening deletion. -/
theorem claim_C10_witness :
    insert_with_tracking
        ([create_run_with_text ['a', 'b']] ++ ([create_deletion_element ['z'] ['A'] ['D']]
          ++ create_run_with_text ['c', 'd'] :: [])) ['X']
        ((get_accepted_text [create_run_with_text ['a', 'b']]).length : Int) ['B'] ['E']
      = [create_run_with_text ['a', 'b']] ++ ([create_deletion_element ['z'] ['A'] ['D']]
          ++ (⟨.ins, revAttrs ['B'] ['E'], ['X']⟩ ::
              (if (create_run_with_text ['c', 'd']).kind = .ins then create_run_with_text ['c', 'd']
               else create_run_with_text (create_run_with_text ['c', 'd']).text) :: [])) :=
  claim_C10 [create_run_with_text ['a', 'b']] [create_deletion_element ['z'] ['A'] ['D']]
    (create_run_with_text ['c', 'd']) [] ['X'] ['B'] ['E']
    (by decide) (by decide) (by decide)

end DocxRevisions
